import Mathlib

/-!
Shallow embedding of the `var` repository's diff-annotation engine
(`internal/ui/diffview.go`) and of the single-file-mode slice of its
navigation state machine (`internal/ui/model.go`), together with theorems
settling the specification claims about them.

Strings are modelled at the rune level as `List Char`, matching Go's
`[]rune` conversions; byte-level first-character tests in the source
(`stripped[0] == '-'` etc.) agree with rune-level tests because the tested
characters are ASCII.
-/

/-! ### ANSI escape stripping (`stripANSI`, regexp `\x1b\[[0-9;]*m`) -/

/-- Character class `[0-9;]` of the ANSI regexp body. -/
def isAnsiBody (c : Char) : Bool := c.isDigit || c = ';'

/-- Given the characters that follow `ESC [`, return the number of
characters spanned by `[0-9;]*m`, if that pattern matches here. -/
def ansiBodyLen : List Char → Option Nat
  | [] => none
  | c :: rest =>
    if c = 'm' then some 1
    else if isAnsiBody c then (ansiBodyLen rest).map (· + 1)
    else none

/-- Worker for `stripANSI`.  The fuel only forces structural recursion:
every step consumes at least one character, so `l.length` fuel is always
enough and the exhaustion branch is unreachable. -/
def stripANSIAux : Nat → List Char → List Char
  | _, [] => []
  | fuel + 1, '\x1b' :: '[' :: rest2 =>
    match ansiBodyLen rest2 with
    | some k => stripANSIAux fuel (rest2.drop k)
    | none => '\x1b' :: stripANSIAux fuel ('[' :: rest2)
  | fuel + 1, c :: rest => c :: stripANSIAux fuel rest
  | 0, l => l

/-- Embeds `stripANSI` from diffview.go: removes every occurrence of the
pattern `ESC [ [0-9;]* m`, scanning left to right as
`regexp.ReplaceAllString` does. -/
def stripANSI (l : List Char) : List Char := stripANSIAux l.length l

/-! ### Hunk header matching
(`hunkHeaderRegex = ^@@\s+-(\d+)(?:,\d+)?\s+\+(\d+)(?:,\d+)?\s+@@`) -/

/-- Go regexp whitespace class `\s` = `[\t\n\f\r ]`. -/
def isGoSpace (c : Char) : Bool :=
  c = ' ' || c = '\t' || c = '\n' || c = '\x0c' || c = '\r'

/-- Consume `\s+`: at least one whitespace character, greedily. -/
def skipWs1 : List Char → Option (List Char)
  | c :: rest => if isGoSpace c then some (rest.dropWhile isGoSpace) else none
  | [] => none

/-- Numeric value of a digit string, as `fmt.Sscanf` with `%d` reads it. -/
def digitsToNat (l : List Char) : Nat :=
  l.foldl (fun a c => a * 10 + (c.toNat - 48)) 0

/-- Consume `\d+`: at least one digit, greedily, returning its value. -/
def takeDigits1 (l : List Char) : Option (Nat × List Char) :=
  match l.takeWhile Char.isDigit with
  | [] => none
  | ds => some (digitsToNat ds, l.dropWhile Char.isDigit)

/-- Consume the optional group `(?:,\d+)?`.  When a comma is present but no
digit follows, the group matches empty (the leftover comma then makes the
following `\s+` fail, as in the regexp). -/
def skipCommaLen : List Char → List Char
  | ',' :: rest =>
    match rest.takeWhile Char.isDigit with
    | [] => ',' :: rest
    | _ => rest.dropWhile Char.isDigit
  | l => l

/-- Embeds `hunkHeaderRegex.FindStringSubmatch`: matches
`^@@\s+-(\d+)(?:,\d+)?\s+\+(\d+)(?:,\d+)?\s+@@` at the start of the line
and returns the two captured numbers (old start, new start). -/
def hunkHeaderMatch (l : List Char) : Option (Nat × Nat) :=
  match l with
  | '@' :: '@' :: rest =>
    match skipWs1 rest with
    | none => none
    | some r1 =>
      match r1 with
      | '-' :: r2 =>
        match takeDigits1 r2 with
        | none => none
        | some (n1, r3) =>
          match skipWs1 (skipCommaLen r3) with
          | none => none
          | some r5 =>
            match r5 with
            | '+' :: r6 =>
              match takeDigits1 r6 with
              | none => none
              | some (n2, r7) =>
                match skipWs1 (skipCommaLen r7) with
                | none => none
                | some r9 =>
                  match r9 with
                  | '@' :: '@' :: _ => some (n1, n2)
                  | _ => none
            | _ => none
      | _ => none
  | _ => none

/-! ### Rendering primitives (the `fmt.Sprintf` pieces of diffview.go) -/

/-- An SGR escape sequence `ESC [ code m`, as the literal pieces
`"\x1b[31m"`, `"\x1b[0m"`, `"\x1b[7m"`, `"\x1b[27m"` of the source. -/
def sgr (code : List Char) : List Char := '\x1b' :: '[' :: (code ++ ['m'])

/-- Worker for `natRepr`; the fuel (at least the number of digits) makes
the division recursion structural. -/
def natReprAux : Nat → Nat → List Char
  | 0, n => [Nat.digitChar n]
  | fuel + 1, n =>
    if n < 10 then [Nat.digitChar n]
    else natReprAux fuel (n / 10) ++ [Nat.digitChar (n % 10)]

/-- Decimal digits of a natural number, most significant first, as `%d`
prints a non-negative int. -/
def natRepr (n : Nat) : List Char := natReprAux n n

/-- Go `%4s` applied to the empty string: four spaces. -/
def blank4 : List Char := [' ', ' ', ' ', ' ']

/-- Go `%4d`: decimal digits right-aligned in a field of (at least) four
characters. -/
def pad4 (n : Nat) : List Char :=
  List.replicate (4 - (natRepr n).length) ' ' ++ natRepr n

/-- The gutter of a metadata or hunk-header output line:
`fmt.Sprintf("%4s %4s │ %s", "", "", line)` minus the payload. -/
def blankGutter : List Char := blank4 ++ [' '] ++ blank4 ++ [' ', '│', ' ']

/-- Rendering of a metadata or hunk-header line:
`fmt.Sprintf("%4s %4s │ %s", "", "", line)`. -/
def metaRender (line : List Char) : List Char := blankGutter ++ line

/-- Rendering of a context (or blank) line inside a hunk:
`fmt.Sprintf("%4d %4d │ %s", oldLine, newLine, line)`. -/
def ctxRender (oldLine newLine : Nat) (line : List Char) : List Char :=
  pad4 oldLine ++ [' '] ++ pad4 newLine ++ [' ', '│', ' '] ++ line

/-! ### Intraline highlighting (`highlightDiff`) -/

/-- The longest-common-prefix loop of `highlightDiff`: count of initial
positions at which the two rune slices agree. -/
def commonPrefixLen : List Char → List Char → Nat
  | a :: as, b :: bs => if a = b then commonPrefixLen as bs + 1 else 0
  | _, _ => 0

/-- The suffix loop of `highlightDiff`, run on the reversed rune slices:
count matching positions, but never more than `cap`. -/
def suffixCount : List Char → List Char → Nat → Nat
  | a :: as, b :: bs, cap + 1 => if a = b then suffixCount as bs cap + 1 else 0
  | _, _, _ => 0

/-- Embeds `highlightDiff` from diffview.go: reverse-video is applied to
the middle region that remains after removing the longest common prefix
and the (capped) longest common suffix of the two lines. -/
def highlightDiff (thisText otherText : List Char) (baseColor : List Char) : List Char :=
  let minLen := min thisText.length otherText.length
  let prefixLen := commonPrefixLen thisText otherText
  let suffixLen := suffixCount thisText.reverse otherText.reverse (minLen - prefixLen)
  let changeStart := prefixLen
  let changeEnd := thisText.length - suffixLen
  if changeEnd ≤ changeStart then
    sgr baseColor ++ thisText ++ sgr ['0']
  else
    sgr baseColor ++ thisText.take changeStart ++ sgr ['7'] ++
      (thisText.drop changeStart).take (changeEnd - changeStart) ++ sgr ['2', '7'] ++
      thisText.drop changeEnd ++ sgr ['0']

/-! ### Block buffering and flushing (`diffBlock`, `flushBlock`) -/

/-- Embeds `diffBlock`: buffered minus/plus lines (ANSI-stripped text,
leading sign still present) with their line numbers. -/
structure diffBlock where
  minusTexts : List (List Char)
  plusTexts : List (List Char)
  minusNums : List Nat
  plusNums : List Nat
deriving DecidableEq

/-- The reset state of the block after a flush. -/
def emptyBlock : diffBlock := ⟨[], [], [], []⟩

/-- Paired minus line:
`fmt.Sprintf("\x1b[31m%4d\x1b[0m %4s │ \x1b[31m-\x1b[0m%s", num, "", highlighted)`
where `highlighted = highlightDiff(text[1:], other[1:], "31")`. -/
def renderPairedMinus (text otherText : List Char) (num : Nat) : List Char :=
  sgr ['3', '1'] ++ pad4 num ++ sgr ['0'] ++ [' '] ++ blank4 ++ [' ', '│', ' '] ++
    sgr ['3', '1'] ++ ['-'] ++ sgr ['0'] ++
    highlightDiff (text.drop 1) (otherText.drop 1) ['3', '1']

/-- Unpaired minus line:
`fmt.Sprintf("\x1b[31m%4d\x1b[0m %4s │ \x1b[31m%s\x1b[0m", num, "", text)`. -/
def renderUnpairedMinus (text : List Char) (num : Nat) : List Char :=
  sgr ['3', '1'] ++ pad4 num ++ sgr ['0'] ++ [' '] ++ blank4 ++ [' ', '│', ' '] ++
    sgr ['3', '1'] ++ text ++ sgr ['0']

/-- Paired plus line:
`fmt.Sprintf("%4s \x1b[32m%4d\x1b[0m │ \x1b[32m+\x1b[0m%s", "", num, highlighted)`
where `highlighted = highlightDiff(text[1:], other[1:], "32")`. -/
def renderPairedPlus (text otherText : List Char) (num : Nat) : List Char :=
  blank4 ++ [' '] ++ sgr ['3', '2'] ++ pad4 num ++ sgr ['0'] ++ [' ', '│', ' '] ++
    sgr ['3', '2'] ++ ['+'] ++ sgr ['0'] ++
    highlightDiff (text.drop 1) (otherText.drop 1) ['3', '2']

/-- Unpaired plus line:
`fmt.Sprintf("%4s \x1b[32m%4d\x1b[0m │ \x1b[32m%s\x1b[0m", "", num, text)`. -/
def renderUnpairedPlus (text : List Char) (num : Nat) : List Char :=
  blank4 ++ [' '] ++ sgr ['3', '2'] ++ pad4 num ++ sgr ['0'] ++ [' ', '│', ' '] ++
    sgr ['3', '2'] ++ text ++ sgr ['0']

/-- Embeds `flushBlock`: outputs all buffered minus lines first (the first
`min(minus, plus)` of each side paired, with word-level highlighting), then
all buffered plus lines, and resets the block. -/
def flushBlock (block : diffBlock) : List (List Char) × diffBlock :=
  let minCount := block.minusTexts.length
  let plusCount := block.plusTexts.length
  let pairCount := min minCount plusCount
  let minusLines := (List.range minCount).map (fun i =>
    let text := block.minusTexts.getD i []
    if i < pairCount then
      renderPairedMinus text (block.plusTexts.getD i []) (block.minusNums.getD i 0)
    else
      renderUnpairedMinus text (block.minusNums.getD i 0))
  let plusLines := (List.range plusCount).map (fun i =>
    let text := block.plusTexts.getD i []
    if i < pairCount then
      renderPairedPlus text (block.minusTexts.getD i []) (block.plusNums.getD i 0)
    else
      renderUnpairedPlus text (block.plusNums.getD i 0))
  (minusLines ++ plusLines, emptyBlock)

/-! ### The `addLineNumbers` state machine -/

/-- The loop state of `addLineNumbers`. -/
structure ALState where
  result : List (List Char)
  hunkPositions : List Nat
  oldLine : Nat
  newLine : Nat
  inHunk : Bool
  block : diffBlock
  collectingMinus : Bool
  collectingPlus : Bool
deriving DecidableEq

/-- State before the loop. -/
def initALState : ALState := ⟨[], [], 0, 0, false, emptyBlock, false, false⟩

/-- The `flushBlock(&block, &result)` call together with the
`collectingMinus = false; collectingPlus = false` resets that follow it at
every call site. -/
def alFlush (st : ALState) : ALState :=
  { st with
    result := st.result ++ (flushBlock st.block).1
    block := (flushBlock st.block).2
    collectingMinus := false
    collectingPlus := false }

/-- One iteration of the `addLineNumbers` loop on a single input line. -/
def alStep (st : ALState) (line : List Char) : ALState :=
  let stripped := stripANSI line
  match hunkHeaderMatch stripped with
  | some (o, n) =>
    let st1 := if st.collectingMinus || st.collectingPlus then alFlush st else st
    { st1 with
      oldLine := o
      newLine := n
      inHunk := true
      hunkPositions := st1.hunkPositions ++ [st1.result.length]
      result := st1.result ++ [metaRender line] }
  | none =>
    if st.inHunk = false then
      { st with result := st.result ++ [metaRender line] }
    else
      match stripped with
      | [] =>
        let st1 := if st.collectingMinus || st.collectingPlus then alFlush st else st
        { st1 with
          result := st1.result ++ [ctxRender st1.oldLine st1.newLine line]
          oldLine := st1.oldLine + 1
          newLine := st1.newLine + 1 }
      | c :: _ =>
        if c = '-' then
          let st1 := if st.collectingPlus then alFlush st else st
          { st1 with
            block := { st1.block with
              minusTexts := st1.block.minusTexts ++ [stripped]
              minusNums := st1.block.minusNums ++ [st1.oldLine] }
            collectingMinus := true
            oldLine := st1.oldLine + 1 }
        else if c = '+' then
          { st with
            block := { st.block with
              plusTexts := st.block.plusTexts ++ [stripped]
              plusNums := st.block.plusNums ++ [st.newLine] }
            collectingMinus := false
            collectingPlus := true
            newLine := st.newLine + 1 }
        else
          let st1 := if st.collectingMinus || st.collectingPlus then alFlush st else st
          { st1 with
            result := st1.result ++ [ctxRender st1.oldLine st1.newLine line]
            oldLine := st1.oldLine + 1
            newLine := st1.newLine + 1 }

/-- The flush of any remaining block after the loop. -/
def alFinish (st : ALState) : ALState :=
  if st.collectingMinus || st.collectingPlus then alFlush st else st

/-- Embeds `strings.Split(content, "\n")`. -/
def splitOnNl : List Char → List (List Char)
  | [] => [[]]
  | c :: rest =>
    if c = '\n' then [] :: splitOnNl rest
    else
      match splitOnNl rest with
      | h :: t => (c :: h) :: t
      | [] => [[c]]

/-- Embeds `strings.Join(lines, "\n")`. -/
def joinNl (lines : List (List Char)) : List Char := List.intercalate ['\n'] lines

/-- Embeds `addLineNumbers` from diffview.go, at the granularity of output
lines: returns the list of rendered lines (joined with `"\n"` by the
source) and the recorded hunk-header positions. -/
def addLineNumbers (content : List Char) : List (List Char) × List Nat :=
  if content = [] then ([], [])
  else
    let st := alFinish ((splitOnNl content).foldl alStep initALState)
    (st.result, st.hunkPositions)

/-! ### Header stripping (`stripDiffHeader`) -/

/-- Index of the first line whose ANSI-stripped form starts with `"@@"`
(the `strings.HasPrefix(stripped, "@@")` loop of `stripDiffHeader`). -/
def findHunkStart : List (List Char) → Option Nat
  | [] => none
  | l :: ls =>
    if ['@', '@'].isPrefixOf (stripANSI l) then some 0
    else (findHunkStart ls).map (· + 1)

/-- Embeds `stripDiffHeader` from diffview.go: keep only from the first
line whose ANSI-stripped form begins with `"@@"` onwards; if there is no
such line, return the content unchanged. -/
def stripDiffHeader (content : List Char) : List Char :=
  let lines := splitOnNl content
  match findHunkStart lines with
  | some i => joinNl (lines.drop i)
  | none => content

/-- Embeds `updateContent`'s transform pipeline: the spec's
`Annotate(rawText, showHeader)` is `stripDiffHeader` (unless the
description is shown) followed by `addLineNumbers`. -/
def annotate (content : List Char) (showDescription : Bool) : List (List Char) × List Nat :=
  addLineNumbers (if showDescription then content else stripDiffHeader content)

/-! ### Hunk navigation (`jumpToNextHunk`, `jumpToPrevHunk`) -/

/-- Embeds `jumpToNextHunk`: the first recorded position strictly greater
than the current offset wins; otherwise the view stays put. -/
def jumpToNextHunk (hunkPositions : List Nat) (offset : Nat) : Nat :=
  match hunkPositions.find? (fun pos => decide (offset < pos)) with
  | some pos => pos
  | none => offset

/-- Embeds `jumpToPrevHunk`: scanning from the end of the list, the first
recorded position strictly less than the current offset wins; otherwise
the view stays put. -/
def jumpToPrevHunk (hunkPositions : List Nat) (offset : Nat) : Nat :=
  match hunkPositions.reverse.find? (fun pos => decide (pos < offset)) with
  | some pos => pos
  | none => offset

/-!
Navigation state machine (single-file-mode slice of model.go).

This embeds the Cursor-relevant state of `Model` and the `Update` handlers
for the single-file-mode keys (`space`, `[`, `]`, `r`, `s`/Enter, `esc`)
and for the asynchronous load-result messages (`fileCommitsLoadedMsg`,
`reflogLoadedMsg`, `sourceCommitsLoadedMsg`, `diffLoadedMsg`).  Display-only
side effects (sidebar labels, focus, the text-input widget) and the
repo-browsing commit axis are outside the slice; opening the pickaxe text
input is elided and its Enter key is modelled directly.
-/

/-- Embeds the `sourceMode` enumeration of model.go. -/
inductive SourceMode
  | commits
  | reflog
  | pickaxe
deriving DecidableEq

/-- A commit as returned by the git service: hash plus one-line message. -/
structure Commit where
  hash : String
  message : String
deriving DecidableEq

/-- The Cursor-relevant fields of `Model` (model.go). -/
structure NavModel where
  singleFileMode : Bool
  currentFile : String
  displayMode : Nat
  sourceMode : SourceMode
  fileCommits : List Commit
  fileCommitIndex : Nat
  reflogEntries : List Commit
  reflogIndex : Nat
  sourceCommits : List Commit
  sourceIndex : Nat
  pickaxeTerm : String
  content : String
deriving DecidableEq

/-- An asynchronous unit of work (`tea.Cmd`) dispatched by a handler, with
the arguments its closure captured at dispatch time. -/
inductive Cmd
  | loadFileCommits (file : String)
  | loadReflog (file : String)
  | loadPickaxe (file : String) (term : String)
  | loadContent (file : String) (hash : String) (dm : Nat)
  | loadEmpty
  | loadRepoDiff (file : String)
deriving DecidableEq

/-- Embeds `currentCommitForSource`: the hash selected by the active
source and its index, if the index is in range. -/
def currentCommitForSource (m : NavModel) : Option String :=
  match m.sourceMode with
  | .reflog =>
    if m.reflogIndex < m.reflogEntries.length then
      some ((m.reflogEntries.getD m.reflogIndex ⟨"", ""⟩).hash)
    else none
  | .pickaxe =>
    if m.sourceIndex < m.sourceCommits.length then
      some ((m.sourceCommits.getD m.sourceIndex ⟨"", ""⟩).hash)
    else none
  | .commits =>
    if m.fileCommitIndex < m.fileCommits.length then
      some ((m.fileCommits.getD m.fileCommitIndex ⟨"", ""⟩).hash)
    else none

/-- Embeds `loadContentForCurrentSource`: capture file, hash and display
mode now, or a command that will deliver empty content. -/
def loadContentForCurrentSource (m : NavModel) : Cmd :=
  match currentCommitForSource m with
  | some h => if m.currentFile = "" then Cmd.loadEmpty else Cmd.loadContent m.currentFile h m.displayMode
  | none => Cmd.loadEmpty

/-- The keys of the single-file-mode slice. `pickaxeSubmit` is the Enter
key inside the pickaxe text input, carrying the typed term. -/
inductive Key
  | stepNewerKey
  | stepOlderKey
  | reflogToggle
  | pickaxeToggle
  | pickaxeSubmit (term : String)
  | escKey
  | spaceKey
deriving DecidableEq

/-- The messages processed by the slice of `Model.Update`. -/
inductive Msg
  | key (k : Key)
  | fileCommitsLoaded (commits : List Commit)
  | reflogLoaded (entries : List Commit)
  | sourceCommitsLoaded (commits : List Commit) (err : Option String)
  | diffLoaded (content : String)
deriving DecidableEq

/-- Embeds `navigateNewer`. -/
def navigateNewer (m : NavModel) : NavModel × List Cmd :=
  match m.sourceMode with
  | .reflog =>
    if 0 < m.reflogIndex then
      let m1 := { m with reflogIndex := m.reflogIndex - 1 }
      (m1, [loadContentForCurrentSource m1])
    else (m, [])
  | .pickaxe =>
    if 0 < m.sourceIndex then
      let m1 := { m with sourceIndex := m.sourceIndex - 1 }
      (m1, [loadContentForCurrentSource m1])
    else (m, [])
  | .commits =>
    if 0 < m.fileCommitIndex then
      let m1 := { m with fileCommitIndex := m.fileCommitIndex - 1 }
      (m1, [loadContentForCurrentSource m1])
    else (m, [])

/-- Embeds `navigateOlder`. -/
def navigateOlder (m : NavModel) : NavModel × List Cmd :=
  match m.sourceMode with
  | .reflog =>
    if m.reflogIndex < m.reflogEntries.length - 1 then
      let m1 := { m with reflogIndex := m.reflogIndex + 1 }
      (m1, [loadContentForCurrentSource m1])
    else (m, [])
  | .pickaxe =>
    if m.sourceIndex < m.sourceCommits.length - 1 then
      let m1 := { m with sourceIndex := m.sourceIndex + 1 }
      (m1, [loadContentForCurrentSource m1])
    else (m, [])
  | .commits =>
    if m.fileCommitIndex < m.fileCommits.length - 1 then
      let m1 := { m with fileCommitIndex := m.fileCommitIndex + 1 }
      (m1, [loadContentForCurrentSource m1])
    else (m, [])

/-- Embeds the slice of `Model.Update`: one message in, the new model and
the dispatched commands out. -/
def navUpdate (m : NavModel) : Msg → NavModel × List Cmd
  | .key k =>
    match k with
    | .stepNewerKey => if m.singleFileMode then navigateNewer m else (m, [])
    | .stepOlderKey => if m.singleFileMode then navigateOlder m else (m, [])
    | .reflogToggle =>
      if m.singleFileMode then
        if m.sourceMode = .reflog then
          let m1 := { m with sourceMode := .commits }
          (m1, [loadContentForCurrentSource m1])
        else
          let m1 := { m with sourceMode := .reflog, reflogIndex := 0 }
          (m1, [Cmd.loadReflog m1.currentFile])
      else (m, [])
    | .pickaxeToggle =>
      if m.singleFileMode then
        if m.sourceMode = .pickaxe then
          let m1 := { m with sourceMode := .commits, pickaxeTerm := "" }
          (m1, [loadContentForCurrentSource m1])
        else (m, [])
      else (m, [])
    | .pickaxeSubmit t =>
      if t = "" then (m, [])
      else
        let m1 := { m with pickaxeTerm := t, sourceMode := .pickaxe, sourceIndex := 0 }
        (m1, [Cmd.loadPickaxe m1.currentFile t])
    | .escKey =>
      if m.singleFileMode then
        if m.sourceMode ≠ .commits then
          let m1 := { m with sourceMode := .commits, pickaxeTerm := "" }
          (m1, [loadContentForCurrentSource m1])
        else
          let m1 := { m with
            singleFileMode := false
            fileCommitIndex := 0
            displayMode := 0
            sourceMode := .commits
            pickaxeTerm := "" }
          (m1, [Cmd.loadRepoDiff m1.currentFile])
      else (m, [])
    | .spaceKey =>
      if m.currentFile ≠ "" ∧ m.singleFileMode = false then
        let m1 := { m with singleFileMode := true, fileCommitIndex := 0 }
        (m1, [Cmd.loadFileCommits m1.currentFile])
      else (m, [])
  | .fileCommitsLoaded cs =>
    let m1 := { m with fileCommits := cs }
    (m1, [loadContentForCurrentSource m1])
  | .reflogLoaded es =>
    let m1 := { m with reflogEntries := es }
    (m1, [loadContentForCurrentSource m1])
  | .sourceCommitsLoaded cs err =>
    if err ≠ none ∨ cs = [] then
      let msgStr := match err with
        | some e => "Error: " ++ e
        | none => "No commits found"
      ({ m with sourceMode := .commits, pickaxeTerm := "", content := msgStr }, [])
    else
      let m1 := { m with sourceCommits := cs }
      (m1, [loadContentForCurrentSource m1])
  | .diffLoaded c => ({ m with content := c }, [])

/-! ### The asynchronous scheduler -/

/-- The external history provider: what each kind of fetch would deliver.
`content` already folds in the error/empty substitution that
`loadContentForCommit` performs before emitting `diffLoadedMsg`. -/
structure GitEnv where
  fileCommits : String → List Commit
  reflog : String → List Commit
  pickaxe : String → String → List Commit × Option String
  content : String → String → Nat → String
  repoDiff : String → String

/-- Completing a dispatched command yields its message. -/
def runCmd (env : GitEnv) : Cmd → Msg
  | .loadFileCommits f => .fileCommitsLoaded (env.fileCommits f)
  | .loadReflog f => .reflogLoaded (env.reflog f)
  | .loadPickaxe f t => .sourceCommitsLoaded (env.pickaxe f t).1 (env.pickaxe f t).2
  | .loadContent f h dm => .diffLoaded (env.content f h dm)
  | .loadEmpty => .diffLoaded ""
  | .loadRepoDiff f => .diffLoaded (env.repoDiff f)

/-- A system state: the model plus the commands dispatched but not yet
completed. -/
structure Sys where
  model : NavModel
  pending : List Cmd
deriving DecidableEq

/-- A scheduler choice: process a user key now, or deliver the result of
the i-th in-flight command now. -/
inductive Choice
  | user (k : Key)
  | deliver (i : Nat)

/-- One step of the cooperative event loop. -/
def sysStep (env : GitEnv) (s : Sys) : Choice → Option Sys
  | .user k =>
    let r := navUpdate s.model (.key k)
    some ⟨r.1, s.pending ++ r.2⟩
  | .deliver i =>
    if i < s.pending.length then
      let r := navUpdate s.model (runCmd env (s.pending.getD i Cmd.loadEmpty))
      some ⟨r.1, s.pending.eraseIdx i ++ r.2⟩
    else none

/-- Run a whole schedule. -/
def runTrace (env : GitEnv) (s : Sys) : List Choice → Option Sys
  | [] => some s
  | c :: cs =>
    match sysStep env s c with
    | some s1 => runTrace env s1 cs
    | none => none

/-!
Atomic operations for the cursor invariant.

`applyOp` packages each public operation of the spec's state machine as a
key press immediately followed by delivery of the load it dispatched (the
synchronous reading of `ActivateSource` and friends).
-/

/-- The public operations of the navigation state machine. -/
inductive NavOp
  | stepNewer
  | stepOlder
  | activateReflog (entries : List Commit)
  | activatePickaxe (term : String) (commits : List Commit) (err : Option String)
  | deactivateSource
  | enterFileMode (commits : List Commit)

/-- Apply one operation, delivering its load result synchronously when a
load was dispatched. -/
def applyOp (m : NavModel) : NavOp → NavModel
  | .stepNewer => (navUpdate m (.key .stepNewerKey)).1
  | .stepOlder => (navUpdate m (.key .stepOlderKey)).1
  | .activateReflog es =>
    let m1 := (navUpdate m (.key .reflogToggle)).1
    if m.singleFileMode = true ∧ m.sourceMode ≠ .reflog then
      (navUpdate m1 (.reflogLoaded es)).1
    else m1
  | .activatePickaxe t cs err =>
    let m1 := (navUpdate m (.key (.pickaxeSubmit t))).1
    if t ≠ "" then (navUpdate m1 (.sourceCommitsLoaded cs err)).1 else m1
  | .deactivateSource => (navUpdate m (.key .escKey)).1
  | .enterFileMode cs =>
    let m1 := (navUpdate m (.key .spaceKey)).1
    if m.currentFile ≠ "" ∧ m.singleFileMode = false then
      (navUpdate m1 (.fileCommitsLoaded cs)).1
    else m1

/-- Bounds discipline for one source index: strictly within the list, or
pinned at zero over an empty list. -/
def idxOK (idx len : Nat) : Prop := idx < len ∨ (idx = 0 ∧ len = 0)

/-- The amended cursor invariant, over all three per-source indices. -/
def NavInv (m : NavModel) : Prop :=
  idxOK m.fileCommitIndex m.fileCommits.length ∧
  idxOK m.reflogIndex m.reflogEntries.length ∧
  idxOK m.sourceIndex m.sourceCommits.length

/-!
Spec-side predicates and concrete scenario data.
-/

/-- A rendered line is a hunk-header line when its gutter carries the
blank number fields of the metadata format and its payload, once color
escapes are removed, matches the hunk-header pattern. -/
def IsHunkLine (l : List Char) : Prop :=
  blankGutter <+: l ∧ (hunkHeaderMatch (stripANSI (l.drop 12))).isSome = true

/-- The loop invariant of `addLineNumbers` relating the recorded hunk
positions to the rendered lines: positions are strictly ascending, in
range, and mark exactly the hunk-header lines. -/
def goodPR (ps : List Nat) (rs : List (List Char)) : Prop :=
  ps.Pairwise (· < ·) ∧
  (∀ p ∈ ps, p < rs.length) ∧
  (∀ i, i < rs.length → (i ∈ ps ↔ IsHunkLine (rs.getD i [])))

/-- History provider for the stale-result scenario: pickaxe finds `P1`,
the reflog holds `R1`, and the diff content fetched for each hash is
distinct. -/
def env5 : GitEnv :=
  { fileCommits := fun _ => [⟨"F1", "f"⟩]
    reflog := fun _ => [⟨"R1", "r"⟩]
    pickaxe := fun _ _ => ([⟨"P1", "p"⟩], none)
    content := fun _ h _ =>
      if h = "P1" then "pickaxe-diff" else if h = "R1" then "reflog-diff" else "file-diff"
    repoDiff := fun _ => "repo-diff" }

/-- Start state for the stale-result scenario: browsing mode with file
`f` selected, nothing loaded yet. -/
def base5 : NavModel :=
  { singleFileMode := false
    currentFile := "f"
    displayMode := 0
    sourceMode := .commits
    fileCommits := []
    fileCommitIndex := 0
    reflogEntries := []
    reflogIndex := 0
    sourceCommits := []
    sourceIndex := 0
    pickaxeTerm := ""
    content := "" }

/-- Schedule for the stale-result scenario: enter single-file mode, load
its history and content, activate pickaxe and load its commit list —
which dispatches a content fetch for `P1` — then switch to the reflog
source while that fetch is still in flight, let the reflog and its
content land, and only then deliver the stale `P1` content. -/
def trace5 : List Choice :=
  [Choice.user .spaceKey, Choice.deliver 0, Choice.deliver 0,
   Choice.user (.pickaxeSubmit "TODO"), Choice.deliver 0,
   Choice.user .reflogToggle, Choice.deliver 1, Choice.deliver 1, Choice.deliver 0]

/-!
Theorems.
-/

/-- Helper: the inline no-results message can never coincide with a
fetch-error message, whatever the error text. -/
theorem no_commits_ne_error (e : String) : "No commits found" ≠ ("Error: " ++ e) := by
  intro h
  obtain ⟨d⟩ := e
  have h2 : (some 'N' : Option Char) = some 'E' := congrArg (fun s => s.data.head?) h
  exact absurd h2 (by decide)

/-- Claim C5 (counterexample): a content fetch dispatched under the
pickaxe source whose result arrives after the user has switched to the
reflog source is NOT discarded: at the end of the schedule `trace5` the
cursor is on the reflog source but the displayed content is the pickaxe
commit's diff, not the reflog commit's diff. -/
theorem stale_pickaxe_result_applied_cex :
    (runTrace env5 ⟨base5, []⟩ trace5).map
        (fun s => (s.model.sourceMode, s.model.content)) =
      some (SourceMode.reflog, "pickaxe-diff") ∧
    env5.content "f" "R1" 0 = "reflog-diff" ∧
    env5.content "f" "P1" 0 = "pickaxe-diff" ∧
    "pickaxe-diff" ≠ "reflog-diff" := by
  exact ⟨rfl, rfl, rfl, by decide⟩

/-- Claim C5 (amended): delivered load results are applied
unconditionally — the `diffLoadedMsg` handler overwrites the displayed
content with whatever arrives, with no check against the cursor's current
source, and a successful `sourceCommitsLoadedMsg` installs its commit list
regardless of the current source mode or term. -/
theorem load_results_applied_unconditionally :
    (∀ (m : NavModel) (c : String),
      navUpdate m (.diffLoaded c) = ({ m with content := c }, [])) ∧
    (∀ (m : NavModel) (cs : List Commit), cs ≠ [] →
      navUpdate m (.sourceCommitsLoaded cs none) =
        ({ m with sourceCommits := cs },
         [loadContentForCurrentSource { m with sourceCommits := cs }])) := by
  constructor
  · intro m c
    rfl
  · intro m cs hcs
    simp [navUpdate, hcs]

/-- Witness for the amended claim C5 theorem at a concrete model. -/
theorem load_results_applied_unconditionally_witness :
    navUpdate base5 (.diffLoaded "x") = ({ base5 with content := "x" }, []) ∧
    navUpdate base5 (.sourceCommitsLoaded [⟨"P1", "p"⟩] none) =
      ({ base5 with sourceCommits := [⟨"P1", "p"⟩] },
       [loadContentForCurrentSource { base5 with sourceCommits := [⟨"P1", "p"⟩] }]) :=
  ⟨load_results_applied_unconditionally.1 base5 "x",
   load_results_applied_unconditionally.2 base5 [⟨"P1", "p"⟩] (by decide)⟩

/-- Claim C6: activating pickaxe with a non-empty term whose search
returns zero commits reverts the source to the default, clears the term
and shows the inline no-results message; a search error produces the same
fallback with an error message; and the two messages are always
distinct. -/
theorem pickaxe_empty_fallback (m : NavModel) (t : String) (ht : t ≠ "") :
    ((applyOp m (.activatePickaxe t [] none)).sourceMode = .commits ∧
     (applyOp m (.activatePickaxe t [] none)).pickaxeTerm = "" ∧
     (applyOp m (.activatePickaxe t [] none)).content = "No commits found") ∧
    (∀ (cs : List Commit) (e : String),
      (applyOp m (.activatePickaxe t cs (some e))).sourceMode = .commits ∧
      (applyOp m (.activatePickaxe t cs (some e))).pickaxeTerm = "" ∧
      (applyOp m (.activatePickaxe t cs (some e))).content = "Error: " ++ e) ∧
    (∀ e : String, "No commits found" ≠ ("Error: " ++ e)) := by
  refine ⟨?_, ?_, no_commits_ne_error⟩
  · simp [applyOp, navUpdate, ht]
  · intro cs e
    simp [applyOp, navUpdate, ht]

/-- Witness for claim C6 at a concrete model and term. -/
theorem pickaxe_empty_fallback_witness :
    (applyOp base5 (.activatePickaxe "TODO" [] none)).sourceMode = .commits ∧
    (applyOp base5 (.activatePickaxe "TODO" [] none)).pickaxeTerm = "" ∧
    (applyOp base5 (.activatePickaxe "TODO" [] none)).content = "No commits found" :=
  (pickaxe_empty_fallback base5 "TODO" (by decide)).1

/-- Helper: the zero index is admissible over any list. -/
theorem idxOK_zero (l : Nat) : idxOK 0 l := by
  unfold idxOK
  omega

/-- Claim C4 (counterexample): activating the reflog source when the
file's reflog is empty leaves the cursor on the reflog source (no revert
to the default source) with `reflogIndex = 0` not below the length of the
empty list — the index is greater than or equal to the list's length. -/
theorem cursor_invariant_cex :
    (applyOp { base5 with singleFileMode := true, fileCommits := [⟨"F1", "f"⟩] }
        (.activateReflog [])).sourceMode = SourceMode.reflog ∧
    (applyOp { base5 with singleFileMode := true, fileCommits := [⟨"F1", "f"⟩] }
        (.activateReflog [])).reflogEntries = [] ∧
    (applyOp { base5 with singleFileMode := true, fileCommits := [⟨"F1", "f"⟩] }
        (.activateReflog [])).reflogEntries.length ≤
      (applyOp { base5 with singleFileMode := true, fileCommits := [⟨"F1", "f"⟩] }
          (.activateReflog [])).reflogIndex := by
  exact ⟨rfl, rfl, by decide⟩

/-- Helper: `navigateNewer` preserves the amended cursor invariant. -/
theorem navigateNewer_inv (m : NavModel) (h : NavInv m) : NavInv (navigateNewer m).1 := by
  obtain ⟨h1, h2, h3⟩ := h
  unfold NavInv idxOK at *
  cases hsm : m.sourceMode <;> simp only [navigateNewer, hsm] <;> split_ifs <;>
    dsimp only <;> omega

/-- Helper: `navigateOlder` preserves the amended cursor invariant. -/
theorem navigateOlder_inv (m : NavModel) (h : NavInv m) : NavInv (navigateOlder m).1 := by
  obtain ⟨h1, h2, h3⟩ := h
  unfold NavInv idxOK at *
  cases hsm : m.sourceMode <;> simp only [navigateOlder, hsm] <;> split_ifs <;>
    dsimp only <;> omega

/-- Helper: every atomic operation preserves the amended cursor
invariant. -/
theorem applyOp_preserves_inv (m : NavModel) (op : NavOp) (h : NavInv m) :
    NavInv (applyOp m op) := by
  cases op with
  | stepNewer =>
    simp only [applyOp, navUpdate]
    split_ifs with hsf
    · exact navigateNewer_inv m h
    · exact h
  | stepOlder =>
    simp only [applyOp, navUpdate]
    split_ifs with hsf
    · exact navigateOlder_inv m h
    · exact h
  | activateReflog es =>
    obtain ⟨h1, h2, h3⟩ := h
    unfold NavInv idxOK at *
    simp only [applyOp, navUpdate]
    split_ifs <;> dsimp only <;> first | omega | simp_all
  | activatePickaxe t cs err =>
    obtain ⟨h1, h2, h3⟩ := h
    unfold NavInv idxOK at *
    simp only [applyOp, navUpdate]
    split_ifs <;> dsimp only <;> omega
  | deactivateSource =>
    obtain ⟨h1, h2, h3⟩ := h
    unfold NavInv idxOK at *
    simp only [applyOp, navUpdate]
    split_ifs <;> dsimp only <;> omega
  | enterFileMode cs =>
    obtain ⟨h1, h2, h3⟩ := h
    unfold NavInv idxOK at *
    simp only [applyOp, navUpdate]
    split_ifs <;> dsimp only <;> omega

/-- Claim C4 (amended): after any sequence of navigation, activation and
deactivation operations, each source index is strictly within its list
when that list is nonempty and pinned at 0 when it is empty; a pickaxe
activation with zero results or an error reverts to the default source
with the term cleared, while a reflog activation installs the delivered
entries — empty or not — at index 0 without reverting. -/
theorem cursor_invariant_amended :
    (∀ (m : NavModel) (ops : List NavOp), NavInv m → NavInv (ops.foldl applyOp m)) ∧
    (∀ (m : NavModel) (t : String) (err : Option String), t ≠ "" →
      (applyOp m (.activatePickaxe t [] err)).sourceMode = .commits ∧
      (applyOp m (.activatePickaxe t [] err)).pickaxeTerm = "") ∧
    (∀ (m : NavModel) (es : List Commit),
      m.singleFileMode = true → m.sourceMode ≠ .reflog →
      (applyOp m (.activateReflog es)).sourceMode = .reflog ∧
      (applyOp m (.activateReflog es)).reflogIndex = 0 ∧
      (applyOp m (.activateReflog es)).reflogEntries = es) := by
  refine ⟨?_, ?_, ?_⟩
  · intro m ops h
    induction ops generalizing m with
    | nil => exact h
    | cons op ops ih =>
      exact ih (applyOp m op) (applyOp_preserves_inv m op h)
  · intro m t err ht
    simp only [applyOp, navUpdate, if_neg ht, if_pos ht, or_true, if_true]
    exact ⟨trivial, trivial⟩
  · intro m es hsf hsm
    have hcond : m.singleFileMode = true ∧ m.sourceMode ≠ .reflog := ⟨hsf, hsm⟩
    simp only [applyOp, navUpdate, if_pos hcond, if_pos hsf, if_neg hsm]
    exact ⟨trivial, trivial, trivial⟩

/-- Witness for the amended claim C4 theorem: a concrete operation
sequence from a concrete valid state keeps the invariant. -/
theorem cursor_invariant_amended_witness :
    NavInv (([NavOp.enterFileMode [⟨"F1", "f"⟩], NavOp.activateReflog [],
        NavOp.stepOlder, NavOp.activatePickaxe "TODO" [] none,
        NavOp.stepNewer, NavOp.deactivateSource] : List NavOp).foldl
      applyOp base5) :=
  cursor_invariant_amended.1 base5 _ (by unfold NavInv idxOK base5; simp)

/-- Helper: `findHunkStart` returns `none` exactly when no line's stripped
form starts with `"@@"`. -/
theorem findHunkStart_eq_none (ls : List (List Char)) :
    findHunkStart ls = none ↔ ∀ l ∈ ls, ['@', '@'].isPrefixOf (stripANSI l) = false := by
  induction ls with
  | nil => simp [findHunkStart]
  | cons l ls ih =>
    by_cases hp : ['@', '@'].isPrefixOf (stripANSI l) = true
    · simp [findHunkStart, hp]
    · simp only [Bool.not_eq_true] at hp
      simp [findHunkStart, hp, ih]

/-- Helper: `findHunkStart` finds the first index whose stripped line
starts with `"@@"`. -/
theorem findHunkStart_eq_some (ls : List (List Char)) (i : Nat)
    (hi : i < ls.length)
    (hp : ['@', '@'].isPrefixOf (stripANSI (ls.getD i [])) = true)
    (hmin : ∀ j, j < i → ['@', '@'].isPrefixOf (stripANSI (ls.getD j [])) = false) :
    findHunkStart ls = some i := by
  induction ls generalizing i with
  | nil => simp at hi
  | cons l ls ih =>
    cases i with
    | zero =>
      simp only [List.getD_cons_zero] at hp
      simp [findHunkStart, hp]
    | succ i =>
      have h0 : ['@', '@'].isPrefixOf (stripANSI l) = false := by
        have := hmin 0 (Nat.succ_pos i)
        simpa using this
      have hrec : findHunkStart ls = some i := by
        apply ih
        · simpa using hi
        · simpa using hp
        · intro j hj
          have := hmin (j + 1) (by omega)
          simpa using this
      simp [findHunkStart, h0, hrec]

/-- Claim C9 (counterexample): `stripDiffHeader` cuts at the first line
whose stripped form merely starts with `"@@"`, even when that line does
not match the full hunk-header pattern: on `"meta\n@@ x"` neither line
matches the pattern, yet the leading line is discarded instead of the
content being returned unchanged. -/
theorem stripDiffHeader_prefix_cut_cex :
    stripDiffHeader ("meta\n@@ x".toList) = ("@@ x".toList) ∧
    hunkHeaderMatch (stripANSI ("meta".toList)) = none ∧
    hunkHeaderMatch (stripANSI ("@@ x".toList)) = none ∧
    stripDiffHeader ("meta\n@@ x".toList) ≠ ("meta\n@@ x".toList) := by
  exact ⟨rfl, rfl, rfl, by decide⟩

/-- Claim C9 (amended): when the header-visibility flag is false the
transform discards exactly the lines preceding the first line whose
ANSI-stripped form starts with `"@@"` (a full hunk-header pattern match is
not required); if no such line exists the content is returned unchanged;
the kept lines are emitted verbatim, escapes included. -/
theorem stripDiffHeader_cut_spec (content : List Char) :
    ((∀ l ∈ splitOnNl content, ¬ (['@', '@'] <+: stripANSI l)) →
      stripDiffHeader content = content) ∧
    (∀ i, i < (splitOnNl content).length →
      (['@', '@'] <+: stripANSI ((splitOnNl content).getD i [])) →
      (∀ j, j < i → ¬ (['@', '@'] <+: stripANSI ((splitOnNl content).getD j []))) →
      stripDiffHeader content = joinNl ((splitOnNl content).drop i)) := by
  constructor
  · intro h
    have hn : findHunkStart (splitOnNl content) = none := by
      rw [findHunkStart_eq_none]
      intro l hl
      have := h l hl
      rw [← Bool.not_eq_true]
      intro hb
      exact this (List.isPrefixOf_iff_prefix.mp hb)
    simp [stripDiffHeader, hn]
  · intro i hi hp hmin
    have hs : findHunkStart (splitOnNl content) = some i := by
      apply findHunkStart_eq_some _ _ hi
      · exact List.isPrefixOf_iff_prefix.mpr hp
      · intro j hj
        rw [← Bool.not_eq_true]
        intro hb
        exact hmin j hj (List.isPrefixOf_iff_prefix.mp hb)
    simp [stripDiffHeader, hs]

/-- Witness for the amended claim C9 theorem on a concrete diff. -/
theorem stripDiffHeader_cut_spec_witness :
    stripDiffHeader ("meta\n@@ -1 +1 @@\nrest".toList) =
      joinNl ((splitOnNl ("meta\n@@ -1 +1 @@\nrest".toList)).drop 1) :=
  (stripDiffHeader_cut_spec ("meta\n@@ -1 +1 @@\nrest".toList)).2 1 (by decide)
    (by decide) (by decide)

/-- Claim C8 (counterexample): a malformed hunk-header line that occurs
after a valid hunk header is NOT emitted metadata-style with blank number
fields — it is rendered as a context line carrying both line numbers. -/
theorem malformed_header_numbered_cex :
    (addLineNumbers ("@@ -1 +1 @@\n@@x".toList)).1.getD 1 [] =
      ctxRender 1 1 ("@@x".toList) ∧
    hunkHeaderMatch (stripANSI ("@@x".toList)) = none ∧
    (addLineNumbers ("@@ -1 +1 @@\n@@x".toList)).1.getD 1 [] ≠
      metaRender ("@@x".toList) := by
  exact ⟨rfl, rfl, by decide⟩

/-- Claim C8 (amended): the transform is total — a line that fails the
hunk-header pattern never aborts processing; before any hunk header it is
emitted metadata-style with blank number fields, while inside a hunk a
malformed header line (leading `'@'`) is emitted as a numbered context
line, the counters advancing past it. -/
theorem malformed_header_graceful (st : ALState) (line : List Char)
    (hm : hunkHeaderMatch (stripANSI line) = none) :
    (st.inHunk = false → alStep st line = { st with result := st.result ++ [metaRender line] }) ∧
    (st.inHunk = true → st.collectingMinus = false → st.collectingPlus = false →
      (stripANSI line).head? = some '@' →
      alStep st line =
        { st with
          result := st.result ++ [ctxRender st.oldLine st.newLine line]
          oldLine := st.oldLine + 1
          newLine := st.newLine + 1 }) := by
  constructor
  · intro hin
    simp [alStep, hm, hin]
  · intro hin hcm hcp hhead
    cases hs : stripANSI line with
    | nil => rw [hs] at hhead; simp at hhead
    | cons c rest =>
      rw [hs] at hhead
      have hc : c = '@' := by simpa using hhead
      subst hc
      have h1 : ¬(('@' : Char) = '-') := by decide
      have h2 : ¬(('@' : Char) = '+') := by decide
      rw [hs] at hm
      simp [alStep, hm, hin, hcm, hcp, hs, h1, h2]

/-- Helper: on a strictly ascending list, `find?` with predicate
`off < ·` returns the least element strictly above `off`. -/
theorem find?_gt_asc_spec (hs : List Nat) (off p : Nat)
    (hsort : hs.Pairwise (· < ·))
    (hf : hs.find? (fun pos => decide (off < pos)) = some p) :
    p ∈ hs ∧ off < p ∧ ∀ q ∈ hs, off < q → p ≤ q := by
  induction hs with
  | nil => simp at hf
  | cons h t ih =>
    rcases List.pairwise_cons.mp hsort with ⟨hht, htail⟩
    by_cases hoh : off < h
    · rw [List.find?_cons_of_pos _ (by simpa using hoh)] at hf
      obtain rfl : h = p := by simpa using hf
      refine ⟨List.mem_cons_self _ _, hoh, ?_⟩
      intro q hq hoq
      rcases List.mem_cons.mp hq with rfl | hq
      · exact le_refl _
      · exact le_of_lt (hht q hq)
    · rw [List.find?_cons_of_neg _ (by simpa using hoh)] at hf
      obtain ⟨hmem, hop, hmin⟩ := ih htail hf
      refine ⟨List.mem_cons_of_mem _ hmem, hop, ?_⟩
      intro q hq hoq
      rcases List.mem_cons.mp hq with rfl | hq
      · exact absurd hoq hoh
      · exact hmin q hq hoq

/-- Helper: on a strictly descending list, `find?` with predicate
`· < off` returns the greatest element strictly below `off`. -/
theorem find?_lt_desc_spec (hs : List Nat) (off p : Nat)
    (hsort : hs.Pairwise (fun a b => b < a))
    (hf : hs.find? (fun pos => decide (pos < off)) = some p) :
    p ∈ hs ∧ p < off ∧ ∀ q ∈ hs, q < off → q ≤ p := by
  induction hs with
  | nil => simp at hf
  | cons h t ih =>
    rcases List.pairwise_cons.mp hsort with ⟨hht, htail⟩
    by_cases hoh : h < off
    · rw [List.find?_cons_of_pos _ (by simpa using hoh)] at hf
      obtain rfl : h = p := by simpa using hf
      refine ⟨List.mem_cons_self _ _, hoh, ?_⟩
      intro q hq hoq
      rcases List.mem_cons.mp hq with rfl | hq
      · exact le_refl _
      · exact le_of_lt (hht q hq)
    · rw [List.find?_cons_of_neg _ (by simpa using hoh)] at hf
      obtain ⟨hmem, hop, hmax⟩ := ih htail hf
      refine ⟨List.mem_cons_of_mem _ hmem, hop, ?_⟩
      intro q hq hoq
      rcases List.mem_cons.mp hq with rfl | hq
      · exact absurd hoq hoh
      · exact hmax q hq hoq

/-- Claim C7: over a strictly ascending offset list, `jumpToNextHunk`
moves to the least recorded offset strictly greater than the current one
and `jumpToPrevHunk` to the greatest strictly smaller one, each staying
put when no such offset exists; and from any recorded offset that has a
successor, next-then-previous returns to the original offset. -/
theorem hunk_nav_spec (hs : List Nat) (off : Nat) (hsort : hs.Pairwise (· < ·)) :
    ((∀ q ∈ hs, ¬ off < q) → jumpToNextHunk hs off = off) ∧
    (∀ q ∈ hs, off < q →
      off < jumpToNextHunk hs off ∧ jumpToNextHunk hs off ∈ hs ∧
        jumpToNextHunk hs off ≤ q) ∧
    ((∀ q ∈ hs, ¬ q < off) → jumpToPrevHunk hs off = off) ∧
    (∀ q ∈ hs, q < off →
      jumpToPrevHunk hs off < off ∧ jumpToPrevHunk hs off ∈ hs ∧
        q ≤ jumpToPrevHunk hs off) ∧
    (off ∈ hs → (∃ q ∈ hs, off < q) →
      jumpToPrevHunk hs (jumpToNextHunk hs off) = off) := by
  have hdesc : hs.reverse.Pairwise (fun a b => b < a) := by
    rw [List.pairwise_reverse]
    exact hsort
  refine ⟨?_, ?_, ?_, ?_, ?_⟩
  · intro hnone
    have hn : hs.find? (fun pos => decide (off < pos)) = none := by
      rw [List.find?_eq_none]
      intro x hx
      simpa using hnone x hx
    simp [jumpToNextHunk, hn]
  · intro q hq hoq
    cases hf : hs.find? (fun pos => decide (off < pos)) with
    | none =>
      have := List.find?_eq_none.mp hf q hq
      simp [hoq] at this
    | some p =>
      obtain ⟨hmem, hop, hmin⟩ := find?_gt_asc_spec hs off p hsort hf
      simp only [jumpToNextHunk, hf]
      exact ⟨hop, hmem, hmin q hq hoq⟩
  · intro hnone
    have hn : hs.reverse.find? (fun pos => decide (pos < off)) = none := by
      rw [List.find?_eq_none]
      intro x hx
      simpa using hnone x (List.mem_reverse.mp hx)
    simp [jumpToPrevHunk, hn]
  · intro q hq hoq
    cases hf : hs.reverse.find? (fun pos => decide (pos < off)) with
    | none =>
      have := List.find?_eq_none.mp hf q (List.mem_reverse.mpr hq)
      simp [hoq] at this
    | some p =>
      obtain ⟨hmem, hop, hmax⟩ := find?_lt_desc_spec hs.reverse off p hdesc hf
      simp only [jumpToPrevHunk, hf]
      exact ⟨hop, List.mem_reverse.mp hmem, hmax q (List.mem_reverse.mpr hq) hoq⟩
  · intro hoff hex
    obtain ⟨q, hq, hoq⟩ := hex
    cases hf : hs.find? (fun pos => decide (off < pos)) with
    | none =>
      have := List.find?_eq_none.mp hf q hq
      simp [hoq] at this
    | some n =>
      obtain ⟨hnmem, hon, hnmin⟩ := find?_gt_asc_spec hs off n hsort hf
      have hnext : jumpToNextHunk hs off = n := by simp [jumpToNextHunk, hf]
      cases hg : hs.reverse.find? (fun pos => decide (pos < n)) with
      | none =>
        have := List.find?_eq_none.mp hg off (List.mem_reverse.mpr hoff)
        simp [hon] at this
      | some p =>
        obtain ⟨hpmem, hpn, hpmax⟩ := find?_lt_desc_spec hs.reverse n p hdesc hg
        have hprev : jumpToPrevHunk hs n = p := by simp [jumpToPrevHunk, hg]
        have hople : off ≤ p := hpmax off (List.mem_reverse.mpr hoff) hon
        have hpe : p = off := by
          rcases Nat.lt_or_ge off p with hlt | hge
          · have := hnmin p (List.mem_reverse.mp hpmem) hlt
            omega
          · omega
        rw [hnext, hprev, hpe]

/-- Witness for claim C7 on a concrete sorted offset list. -/
theorem hunk_nav_spec_witness :
    jumpToPrevHunk [2, 5, 9] (jumpToNextHunk [2, 5, 9] 5) = 5 :=
  (hunk_nav_spec [2, 5, 9] 5 (by decide)).2.2.2.2 (by decide) ⟨9, by decide, by decide⟩

/-- Helper: positional description of the lines `flushBlock` emits. -/
theorem flushBlock_lines_getD (b : diffBlock) :
    (flushBlock b).1.length = b.minusTexts.length + b.plusTexts.length ∧
    (∀ i, i < b.minusTexts.length →
      (flushBlock b).1.getD i [] =
        if i < min b.minusTexts.length b.plusTexts.length then
          renderPairedMinus (b.minusTexts.getD i []) (b.plusTexts.getD i [])
            (b.minusNums.getD i 0)
        else
          renderUnpairedMinus (b.minusTexts.getD i []) (b.minusNums.getD i 0)) ∧
    (∀ j, j < b.plusTexts.length →
      (flushBlock b).1.getD (b.minusTexts.length + j) [] =
        if j < min b.minusTexts.length b.plusTexts.length then
          renderPairedPlus (b.plusTexts.getD j []) (b.minusTexts.getD j [])
            (b.plusNums.getD j 0)
        else
          renderUnpairedPlus (b.plusTexts.getD j []) (b.plusNums.getD j 0)) := by
  refine ⟨?_, ?_, ?_⟩
  · simp [flushBlock]
  · intro i hi
    have hlen : i < ((List.range b.minusTexts.length).map (fun i =>
        if i < min b.minusTexts.length b.plusTexts.length then
          renderPairedMinus (b.minusTexts.getD i []) (b.plusTexts.getD i [])
            (b.minusNums.getD i 0)
        else
          renderUnpairedMinus (b.minusTexts.getD i []) (b.minusNums.getD i 0))).length := by
      simpa using hi
    simp only [flushBlock]
    rw [List.getD_append _ _ _ _ hlen, List.getD_eq_getElem _ _ hlen]
    simp
  · intro j hj
    have hlen2 : j < ((List.range b.plusTexts.length).map (fun j =>
        if j < min b.minusTexts.length b.plusTexts.length then
          renderPairedPlus (b.plusTexts.getD j []) (b.minusTexts.getD j [])
            (b.plusNums.getD j 0)
        else
          renderUnpairedPlus (b.plusTexts.getD j []) (b.plusNums.getD j 0))).length := by
      simpa using hj
    simp only [flushBlock]
    rw [List.getD_append_right _ _ _ _ (by simp), List.getD_eq_getElem _ _ (by simpa using hlen2)]
    simp

/-- Helper: the prefix loop never counts past either list. -/
theorem commonPrefixLen_le_min (t o : List Char) :
    commonPrefixLen t o ≤ min t.length o.length := by
  induction t generalizing o with
  | nil => simp [commonPrefixLen]
  | cons a as ih =>
    cases o with
    | nil => simp [commonPrefixLen]
    | cons b bs =>
      by_cases hab : a = b
      · simp only [commonPrefixLen, if_pos hab, List.length_cons]
        have := ih bs
        omega
      · simp [commonPrefixLen, hab]

/-- Helper: `commonPrefixLen` is the longest common prefix length — the
first `k` characters agree exactly for `k` up to it. -/
theorem commonPrefixLen_take (t : List Char) : ∀ (o : List Char) (k : Nat),
    k ≤ min t.length o.length →
    (t.take k = o.take k ↔ k ≤ commonPrefixLen t o) := by
  induction t with
  | nil =>
    intro o k hk
    have hk0 : k = 0 := by simp at hk; omega
    subst hk0
    simp
  | cons a as ih =>
    intro o k hk
    cases o with
    | nil =>
      have hk0 : k = 0 := by simpa using hk
      subst hk0
      simp
    | cons b bs =>
      cases k with
      | zero => simp
      | succ k =>
        simp only [List.length_cons, Nat.succ_min_succ] at hk
        by_cases hab : a = b
        · subst hab
          have hcp : commonPrefixLen (a :: as) (a :: bs) = commonPrefixLen as bs + 1 := by
            simp [commonPrefixLen]
          rw [hcp, List.take_succ_cons, List.take_succ_cons]
          have hiff := ih bs k (by omega)
          constructor
          · intro h
            have h2 : as.take k = bs.take k := by
              have := congrArg List.tail h
              simpa using this
            have := hiff.mp h2
            omega
          · intro h
            have h2 : as.take k = bs.take k := hiff.mpr (by omega)
            rw [h2]
        · have hcp : commonPrefixLen (a :: as) (b :: bs) = 0 := by
            simp [commonPrefixLen, hab]
          rw [hcp]
          simp only [List.take_succ_cons, List.cons.injEq]
          constructor
          · intro h
            exact absurd h.1 hab
          · intro h
            exact absurd h (by omega)

/-- Helper: agreeing on the whole common prefix. -/
theorem commonPrefixLen_take_eq (t o : List Char) :
    t.take (commonPrefixLen t o) = o.take (commonPrefixLen t o) :=
  (commonPrefixLen_take t o (commonPrefixLen t o) (commonPrefixLen_le_min t o)).mpr
    (le_refl _)

/-- Helper: the capped suffix loop equals the common prefix length of the
reversed inputs, cut off at the cap. -/
theorem suffixCount_eq_min (t : List Char) : ∀ (o : List Char) (cap : Nat),
    suffixCount t o cap = min (commonPrefixLen t o) cap := by
  induction t with
  | nil => intro o cap; cases o <;> simp [suffixCount, commonPrefixLen]
  | cons a as ih =>
    intro o cap
    cases o with
    | nil => simp [suffixCount, commonPrefixLen]
    | cons b bs =>
      cases cap with
      | zero => simp [suffixCount]
      | succ cap =>
        by_cases hab : a = b
        · have h1 : suffixCount (a :: as) (b :: bs) (cap + 1) = suffixCount as bs cap + 1 := by
            simp [suffixCount, hab]
          have h2 : commonPrefixLen (a :: as) (b :: bs) = commonPrefixLen as bs + 1 := by
            simp [commonPrefixLen, hab]
          rw [h1, h2, ih bs cap]
          omega
        · have h1 : suffixCount (a :: as) (b :: bs) (cap + 1) = 0 := by
            simp [suffixCount, hab]
          have h2 : commonPrefixLen (a :: as) (b :: bs) = 0 := by
            simp [commonPrefixLen, hab]
          rw [h1, h2]
          omega

/-- Claim C2: for a stripped deletion/addition text pair, `highlightDiff`
computes the longest common prefix length `p` and the longest common
suffix length `s` capped so that `p + s` never exceeds the shorter
length; when `p ≥ len − s` it emits the whole line in the base color with
no reverse-video span (in particular for identical texts), and otherwise
it emits the base-colored prefix `[0,p)`, a reverse-video span over
`[p, len−s)` and the base-colored suffix. -/
theorem highlightDiff_prefix_suffix_spec (t o base : List Char) :
    (∀ k, k ≤ min t.length o.length →
      (t.take k = o.take k ↔ k ≤ commonPrefixLen t o)) ∧
    commonPrefixLen t o +
        suffixCount t.reverse o.reverse
          (min t.length o.length - commonPrefixLen t o) ≤
      min t.length o.length ∧
    (∀ k,
      (k ≤ min t.length o.length - commonPrefixLen t o ∧
          t.drop (t.length - k) = o.drop (o.length - k)) ↔
        k ≤ suffixCount t.reverse o.reverse
          (min t.length o.length - commonPrefixLen t o)) ∧
    (t.length -
          suffixCount t.reverse o.reverse
            (min t.length o.length - commonPrefixLen t o) ≤
        commonPrefixLen t o →
      highlightDiff t o base = sgr base ++ t ++ sgr ['0']) ∧
    (commonPrefixLen t o <
        t.length -
          suffixCount t.reverse o.reverse
            (min t.length o.length - commonPrefixLen t o) →
      highlightDiff t o base =
        sgr base ++ t.take (commonPrefixLen t o) ++ sgr ['7'] ++
          (t.drop (commonPrefixLen t o)).take
            (t.length -
                suffixCount t.reverse o.reverse
                  (min t.length o.length - commonPrefixLen t o) -
              commonPrefixLen t o) ++
          sgr ['2', '7'] ++
          t.drop
            (t.length -
              suffixCount t.reverse o.reverse
                (min t.length o.length - commonPrefixLen t o)) ++
          sgr ['0']) ∧
    (t = o → highlightDiff t o base = sgr base ++ t ++ sgr ['0']) := by
  have hple : commonPrefixLen t o ≤ min t.length o.length := commonPrefixLen_le_min t o
  have hrevmin : min t.reverse.length o.reverse.length = min t.length o.length := by
    simp
  have hseq := suffixCount_eq_min t.reverse o.reverse
    (min t.length o.length - commonPrefixLen t o)
  have hrle : commonPrefixLen t.reverse o.reverse ≤ min t.length o.length := by
    have h := commonPrefixLen_le_min t.reverse o.reverse
    rw [hrevmin] at h
    exact h
  refine ⟨fun k hk => commonPrefixLen_take t o k hk, ?_, ?_, ?_, ?_, ?_⟩
  · rw [hseq]
    omega
  · intro k
    constructor
    · rintro ⟨hkcap, hdrop⟩
      rw [hseq]
      have htk : t.reverse.take k = o.reverse.take k := by
        rw [List.take_reverse, List.take_reverse, hdrop]
      have := (commonPrefixLen_take t.reverse o.reverse k (by
        rw [hrevmin]; omega)).mp htk
      omega
    · intro hks
      rw [hseq] at hks
      have hkcap : k ≤ min t.length o.length - commonPrefixLen t o := by omega
      have htk : t.reverse.take k = o.reverse.take k :=
        (commonPrefixLen_take t.reverse o.reverse k (by rw [hrevmin]; omega)).mpr
          (by omega)
      refine ⟨hkcap, ?_⟩
      have := congrArg List.reverse htk
      rwa [List.take_reverse, List.take_reverse, List.reverse_reverse,
        List.reverse_reverse] at this
  · intro h
    simp only [highlightDiff]
    rw [if_pos h]
  · intro h
    simp only [highlightDiff]
    rw [if_neg (by omega)]
  · intro heq
    subst heq
    have hp : commonPrefixLen t t = t.length := by
      have h1 := commonPrefixLen_le_min t t
      have h2 := (commonPrefixLen_take t t t.length (by simp)).mp rfl
      omega
    simp only [highlightDiff]
    rw [if_pos (by rw [hp]; omega)]

/-- Witness for claim C2 on the spec's `-foo`/`+fog` example: prefix
`fo`, highlighted middle `o`, empty suffix. -/
theorem highlightDiff_prefix_suffix_spec_witness :
    highlightDiff ("foo".toList) ("fog".toList) ['3', '1'] =
      sgr ['3', '1'] ++ ("fo".toList) ++ sgr ['7'] ++ ("o".toList) ++
        sgr ['2', '7'] ++ [] ++ sgr ['0'] := by
  have h := (highlightDiff_prefix_suffix_spec ("foo".toList) ("fog".toList)
    ['3', '1']).2.2.2.2.1 (by decide)
  simpa using h

/-- Claim C10: on flush every buffered deletion line is emitted before
every buffered addition line, each group in its original buffer order
(the i-th emitted line renders the i-th buffered deletion and the line at
position `minusCount + j` renders the j-th buffered addition), and the
returned block has both buffers empty. -/
theorem flushBlock_minus_before_plus (b : diffBlock) :
    (flushBlock b).1.length = b.minusTexts.length + b.plusTexts.length ∧
    (∀ i, i < b.minusTexts.length →
      (flushBlock b).1.getD i [] =
        if i < min b.minusTexts.length b.plusTexts.length then
          renderPairedMinus (b.minusTexts.getD i []) (b.plusTexts.getD i [])
            (b.minusNums.getD i 0)
        else
          renderUnpairedMinus (b.minusTexts.getD i []) (b.minusNums.getD i 0)) ∧
    (∀ j, j < b.plusTexts.length →
      (flushBlock b).1.getD (b.minusTexts.length + j) [] =
        if j < min b.minusTexts.length b.plusTexts.length then
          renderPairedPlus (b.plusTexts.getD j []) (b.minusTexts.getD j [])
            (b.plusNums.getD j 0)
        else
          renderUnpairedPlus (b.plusTexts.getD j []) (b.plusNums.getD j 0)) ∧
    (flushBlock b).2 = emptyBlock := by
  obtain ⟨h1, h2, h3⟩ := flushBlock_lines_getD b
  exact ⟨h1, h2, h3, rfl⟩

/-- Witness for claim C10 on a concrete interleaving-shaped block. -/
theorem flushBlock_minus_before_plus_witness :
    (flushBlock ⟨[['-', 'a'], ['-', 'b']], [['+', 'c']], [3, 4], [3]⟩).1.getD 0 [] =
      renderPairedMinus ['-', 'a'] ['+', 'c'] 3 ∧
    (flushBlock ⟨[['-', 'a'], ['-', 'b']], [['+', 'c']], [3, 4], [3]⟩).1.getD 1 [] =
      renderUnpairedMinus ['-', 'b'] 4 ∧
    (flushBlock ⟨[['-', 'a'], ['-', 'b']], [['+', 'c']], [3, 4], [3]⟩).1.getD 2 [] =
      renderPairedPlus ['+', 'c'] ['-', 'a'] 3 := by
  refine ⟨?_, ?_, ?_⟩
  · have h := (flushBlock_minus_before_plus
      ⟨[['-', 'a'], ['-', 'b']], [['+', 'c']], [3, 4], [3]⟩).2.1 0 (by decide)
    simpa using h
  · have h := (flushBlock_minus_before_plus
      ⟨[['-', 'a'], ['-', 'b']], [['+', 'c']], [3, 4], [3]⟩).2.1 1 (by decide)
    simpa using h
  · have h := (flushBlock_minus_before_plus
      ⟨[['-', 'a'], ['-', 'b']], [['+', 'c']], [3, 4], [3]⟩).2.2.1 0 (by decide)
    simpa using h

/-- Claim C3: the buffering state machine — a deletion line arriving
while additions are collected flushes the block first and starts a fresh
deletion buffer; an addition line while deletions are collected buffers
without flushing; hunk-header, blank and context lines flush and clear
both buffers; and a flush pairs deletion`[i]` with addition`[i]` for
`i < min(#deletions, #additions)` with intraline highlighting, emitting
the unpaired remainder with uniform coloring and no highlight. -/
theorem addLineNumbers_buffering_spec (st : ALState) (line : List Char) :
    ((stripANSI line).head? = some '-' →
      hunkHeaderMatch (stripANSI line) = none →
      st.inHunk = true → st.collectingPlus = true →
      alStep st line =
        { st with
          result := st.result ++ (flushBlock st.block).1
          block := { emptyBlock with
            minusTexts := [stripANSI line]
            minusNums := [st.oldLine] }
          collectingMinus := true
          collectingPlus := false
          oldLine := st.oldLine + 1 }) ∧
    ((stripANSI line).head? = some '+' →
      hunkHeaderMatch (stripANSI line) = none →
      st.inHunk = true →
      alStep st line =
        { st with
          block := { st.block with
            plusTexts := st.block.plusTexts ++ [stripANSI line]
            plusNums := st.block.plusNums ++ [st.newLine] }
          collectingMinus := false
          collectingPlus := true
          newLine := st.newLine + 1 }) ∧
    (∀ o n, hunkHeaderMatch (stripANSI line) = some (o, n) →
      (st.collectingMinus || st.collectingPlus) = true →
      alStep st line =
        { st with
          result := (st.result ++ (flushBlock st.block).1) ++ [metaRender line]
          hunkPositions :=
            st.hunkPositions ++ [(st.result ++ (flushBlock st.block).1).length]
          oldLine := o
          newLine := n
          inHunk := true
          block := emptyBlock
          collectingMinus := false
          collectingPlus := false }) ∧
    (stripANSI line = [] → st.inHunk = true →
      (st.collectingMinus || st.collectingPlus) = true →
      alStep st line =
        { st with
          result :=
            (st.result ++ (flushBlock st.block).1) ++
              [ctxRender st.oldLine st.newLine line]
          oldLine := st.oldLine + 1
          newLine := st.newLine + 1
          block := emptyBlock
          collectingMinus := false
          collectingPlus := false }) ∧
    (∀ c rest, stripANSI line = c :: rest → c ≠ '-' → c ≠ '+' →
      hunkHeaderMatch (stripANSI line) = none → st.inHunk = true →
      (st.collectingMinus || st.collectingPlus) = true →
      alStep st line =
        { st with
          result :=
            (st.result ++ (flushBlock st.block).1) ++
              [ctxRender st.oldLine st.newLine line]
          oldLine := st.oldLine + 1
          newLine := st.newLine + 1
          block := emptyBlock
          collectingMinus := false
          collectingPlus := false }) ∧
    (∀ i, i < st.block.minusTexts.length →
      (flushBlock st.block).1.getD i [] =
        if i < min st.block.minusTexts.length st.block.plusTexts.length then
          renderPairedMinus (st.block.minusTexts.getD i [])
            (st.block.plusTexts.getD i []) (st.block.minusNums.getD i 0)
        else
          renderUnpairedMinus (st.block.minusTexts.getD i [])
            (st.block.minusNums.getD i 0)) ∧
    (∀ j, j < st.block.plusTexts.length →
      (flushBlock st.block).1.getD (st.block.minusTexts.length + j) [] =
        if j < min st.block.minusTexts.length st.block.plusTexts.length then
          renderPairedPlus (st.block.plusTexts.getD j [])
            (st.block.minusTexts.getD j []) (st.block.plusNums.getD j 0)
        else
          renderUnpairedPlus (st.block.plusTexts.getD j [])
            (st.block.plusNums.getD j 0)) := by
  refine ⟨?_, ?_, ?_, ?_, ?_,
    (flushBlock_lines_getD st.block).2.1, (flushBlock_lines_getD st.block).2.2⟩
  · intro hhead hm hin hcp
    cases hs : stripANSI line with
    | nil => rw [hs] at hhead; simp at hhead
    | cons c rest =>
      rw [hs] at hhead
      have hc : c = '-' := by simpa using hhead
      subst hc
      rw [hs] at hm
      simp [alStep, hm, hin, hcp, hs, alFlush, flushBlock, emptyBlock]
  · intro hhead hm hin
    cases hs : stripANSI line with
    | nil => rw [hs] at hhead; simp at hhead
    | cons c rest =>
      rw [hs] at hhead
      have hc : c = '+' := by simpa using hhead
      subst hc
      rw [hs] at hm
      have h1 : ¬(('+' : Char) = '-') := by decide
      simp [alStep, hm, hin, hs, h1]
  · intro o n hm hcol
    simp [alStep, hm, hcol, alFlush, flushBlock, emptyBlock]
  · intro hs hin hcol
    have hm : hunkHeaderMatch ([] : List Char) = none := rfl
    simp [alStep, hm, hin, hcol, hs, alFlush, flushBlock, emptyBlock]
  · intro c rest hs hc1 hc2 hm hin hcol
    rw [hs] at hm
    simp [alStep, hm, hin, hcol, hs, hc1, hc2, alFlush, flushBlock, emptyBlock]

/-- Witness for claim C3 at a concrete buffering state: a deletion line
arriving while an addition is buffered. -/
theorem addLineNumbers_buffering_spec_witness :
    alStep ⟨[], [], 5, 7, true, ⟨[], [['+', 'a']], [], [7]⟩, false, true⟩
        ("-x".toList) =
      { (⟨[], [], 5, 7, true, ⟨[], [['+', 'a']], [], [7]⟩, false, true⟩ : ALState) with
        result :=
          (flushBlock (⟨[], [['+', 'a']], [], [7]⟩ : diffBlock)).1
        block := { emptyBlock with
          minusTexts := [stripANSI ("-x".toList)]
          minusNums := [5] }
        collectingMinus := true
        collectingPlus := false
        oldLine := 6 } := by
  have h := (addLineNumbers_buffering_spec
    ⟨[], [], 5, 7, true, ⟨[], [['+', 'a']], [], [7]⟩, false, true⟩
    ("-x".toList)).1 (by decide) (by decide) rfl rfl
  simpa using h

/-- Witness for the amended claim C8 theorem: both branches at concrete
states and lines. -/
theorem malformed_header_graceful_witness :
    alStep initALState ("junk".toList) =
      { initALState with result := initALState.result ++ [metaRender ("junk".toList)] } ∧
    alStep { initALState with inHunk := true } ("@@x".toList) =
      { initALState with
        inHunk := true
        result := [ctxRender 0 0 ("@@x".toList)]
        oldLine := 1
        newLine := 1 } := by
  constructor
  · exact (malformed_header_graceful initALState ("junk".toList) (by decide)).1 rfl
  · have h := (malformed_header_graceful { initALState with inHunk := true }
      ("@@x".toList) (by decide)).2 rfl rfl rfl (by decide)
    simpa using h



/-- Helper: decimal digit characters are never the space character. -/
theorem digitChar_ne_space (n : Nat) : Nat.digitChar n ≠ ' ' := by
  rcases n with _|_|_|_|_|_|_|_|_|_|_|_|_|_|_|_|n
  all_goals try decide
  simp only [Nat.digitChar]
  repeat rw [if_neg (by omega)]
  decide

/-- Helper: every character `natReprAux` emits is a digit, never a
space. -/
theorem natReprAux_ne_space (fuel : Nat) : ∀ (n : Nat), ∀ c ∈ natReprAux fuel n, c ≠ ' ' := by
  induction fuel with
  | zero =>
    intro n c hc
    simp only [natReprAux, List.mem_singleton] at hc
    subst hc
    exact digitChar_ne_space n
  | succ fuel ih =>
    intro n c hc
    simp only [natReprAux] at hc
    by_cases h10 : n < 10
    · rw [if_pos h10] at hc
      simp only [List.mem_singleton] at hc
      subst hc
      exact digitChar_ne_space n
    · rw [if_neg h10] at hc
      rcases List.mem_append.mp hc with h | h
      · exact ih (n / 10) c h
      · simp only [List.mem_singleton] at h
        subst h
        exact digitChar_ne_space _

/-- Helper: the digit rendering is never empty. -/
theorem natReprAux_ne_nil (fuel n : Nat) : natReprAux fuel n ≠ [] := by
  cases fuel with
  | zero => simp [natReprAux]
  | succ fuel =>
    simp only [natReprAux]
    split_ifs
    · simp
    · simp

/-- Helper: the first four characters of a `%4d` field contain a
non-space character, whatever follows. -/
theorem pad4_append_getD (n : Nat) (rest : List Char) :
    (pad4 n ++ rest).getD (4 - (natRepr n).length) ' ' ≠ ' ' ∧
      4 - (natRepr n).length < 4 := by
  have hne : natRepr n ≠ [] := natReprAux_ne_nil n n
  have hlen : 0 < (natRepr n).length := List.length_pos.mpr hne
  constructor
  · unfold pad4
    rw [List.append_assoc]
    rw [List.getD_append_right _ _ _ _ (by simp)]
    simp only [List.length_replicate, Nat.sub_self]
    rw [List.getD_append _ _ _ _ hlen]
    have hmem : (natRepr n).getD 0 ' ' ∈ natRepr n := by
      rw [List.getD_eq_getElem _ _ hlen]
      exact List.getElem_mem _
    exact natReprAux_ne_space n n _ hmem
  · omega

/-- Helper: a line whose first ten characters are not all spaces cannot
carry the blank metadata gutter. -/
theorem not_gutter_prefix_of_getD (l : List Char) (i : Nat) (hi : i < 10)
    (hne : l.getD i ' ' ≠ ' ') : ¬ (blankGutter <+: l) := by
  rintro ⟨t, rfl⟩
  have h1 : (blankGutter ++ t).getD i ' ' = blankGutter.getD i ' ' :=
    List.getD_append _ _ _ _ (by
      have h12 : blankGutter.length = 12 := rfl
      omega)
  have h2 : blankGutter.getD i ' ' = ' ' := by
    unfold blankGutter blank4
    interval_cases i <;> rfl
  exact hne (h1.trans h2)

/-- Helper: a metadata-rendered line is a hunk-header line exactly when
its payload's stripped form matches the hunk-header pattern. -/
theorem isHunkLine_metaRender (line : List Char) :
    IsHunkLine (metaRender line) ↔
      (hunkHeaderMatch (stripANSI line)).isSome = true := by
  unfold IsHunkLine metaRender
  have hdrop : (blankGutter ++ line).drop 12 = line := by
    have h12 : blankGutter.length = 12 := rfl
    rw [← h12, List.drop_left]
  rw [hdrop]
  constructor
  · rintro ⟨_, h⟩
    exact h
  · intro h
    exact ⟨⟨line, rfl⟩, h⟩

/-- Helper: a numbered context line is never a hunk-header line. -/
theorem ctxRender_not_hunk (o n : Nat) (line : List Char) :
    ¬ IsHunkLine (ctxRender o n line) := by
  intro h
  obtain ⟨hpre, _⟩ := h
  have hassoc : ctxRender o n line =
      pad4 o ++ ([' '] ++ (pad4 n ++ ([' ', '│', ' '] ++ line))) := by
    unfold ctxRender
    simp [List.append_assoc]
  have hp4 := pad4_append_getD o ([' '] ++ (pad4 n ++ ([' ', '│', ' '] ++ line)))
  rw [hassoc] at hpre
  exact not_gutter_prefix_of_getD _ (4 - (natRepr o).length) (by omega) hp4.1 hpre

/-- Helper: a paired minus line starts with an escape, never with the
blank gutter. -/
theorem renderPairedMinus_not_hunk (t o2 : List Char) (num : Nat) :
    ¬ IsHunkLine (renderPairedMinus t o2 num) := by
  intro h
  obtain ⟨hpre, _⟩ := h
  refine not_gutter_prefix_of_getD _ 0 (by omega) ?_ hpre
  simp only [renderPairedMinus, sgr, List.cons_append, List.getD_cons_zero]
  decide

/-- Helper: an unpaired minus line starts with an escape. -/
theorem renderUnpairedMinus_not_hunk (t : List Char) (num : Nat) :
    ¬ IsHunkLine (renderUnpairedMinus t num) := by
  intro h
  obtain ⟨hpre, _⟩ := h
  refine not_gutter_prefix_of_getD _ 0 (by omega) ?_ hpre
  simp only [renderUnpairedMinus, sgr, List.cons_append, List.getD_cons_zero]
  decide

/-- Helper: a paired plus line has an escape at position five. -/
theorem renderPairedPlus_not_hunk (t o2 : List Char) (num : Nat) :
    ¬ IsHunkLine (renderPairedPlus t o2 num) := by
  intro h
  obtain ⟨hpre, _⟩ := h
  refine not_gutter_prefix_of_getD _ 5 (by omega) ?_ hpre
  simp only [renderPairedPlus, sgr, blank4, List.cons_append, List.nil_append,
    List.getD_cons_succ, List.getD_cons_zero]
  decide

/-- Helper: an unpaired plus line has an escape at position five. -/
theorem renderUnpairedPlus_not_hunk (t : List Char) (num : Nat) :
    ¬ IsHunkLine (renderUnpairedPlus t num) := by
  intro h
  obtain ⟨hpre, _⟩ := h
  refine not_gutter_prefix_of_getD _ 5 (by omega) ?_ hpre
  simp only [renderUnpairedPlus, sgr, blank4, List.cons_append, List.nil_append,
    List.getD_cons_succ, List.getD_cons_zero]
  decide

/-- Helper: no line a flush emits is a hunk-header line. -/
theorem flushBlock_not_hunk (b : diffBlock) :
    ∀ l ∈ (flushBlock b).1, ¬ IsHunkLine l := by
  intro l hl
  simp only [flushBlock] at hl
  rcases List.mem_append.mp hl with h | h
  · obtain ⟨i, _, rfl⟩ := List.mem_map.mp h
    split_ifs
    · exact renderPairedMinus_not_hunk _ _ _
    · exact renderUnpairedMinus_not_hunk _ _
  · obtain ⟨i, _, rfl⟩ := List.mem_map.mp h
    split_ifs
    · exact renderPairedPlus_not_hunk _ _ _
    · exact renderUnpairedPlus_not_hunk _ _

/-- Helper: appending non-header lines preserves the position/result
invariant without recording new positions. -/
theorem goodPR_append_nonhunk (ps : List Nat) (rs ls : List (List Char))
    (h : goodPR ps rs) (hl : ∀ l ∈ ls, ¬ IsHunkLine l) : goodPR ps (rs ++ ls) := by
  obtain ⟨hp, hb, hiff⟩ := h
  refine ⟨hp, ?_, ?_⟩
  · intro p hps
    have := hb p hps
    simp only [List.length_append]
    omega
  · intro i hi
    by_cases hir : i < rs.length
    · rw [List.getD_append _ _ _ _ hir]
      exact hiff i hir
    · have hnot : i ∉ ps := fun hmem => hir (hb i hmem)
      rw [List.getD_append_right _ _ _ _ (by omega)]
      constructor
      · intro hmem
        exact absurd hmem hnot
      · intro hh
        exfalso
        have hlen : i - rs.length < ls.length := by
          simp only [List.length_append] at hi
          omega
        have hmem : ls.getD (i - rs.length) [] ∈ ls := by
          rw [List.getD_eq_getElem _ _ hlen]
          exact List.getElem_mem _
        exact hl _ hmem hh

/-- Helper: appending one header line while recording its position
preserves the position/result invariant. -/
theorem goodPR_append_hunk (ps : List Nat) (rs : List (List Char)) (l : List Char)
    (h : goodPR ps rs) (hl : IsHunkLine l) :
    goodPR (ps ++ [rs.length]) (rs ++ [l]) := by
  obtain ⟨hp, hb, hiff⟩ := h
  refine ⟨?_, ?_, ?_⟩
  · rw [List.pairwise_append]
    refine ⟨hp, List.pairwise_singleton _ _, ?_⟩
    intro a ha b hb2
    rw [List.mem_singleton] at hb2
    subst hb2
    exact hb a ha
  · intro p hps
    rcases List.mem_append.mp hps with h1 | h1
    · have := hb p h1
      simp only [List.length_append, List.length_singleton]
      omega
    · rw [List.mem_singleton] at h1
      subst h1
      simp
  · intro i hi
    simp only [List.length_append, List.length_singleton] at hi
    by_cases hir : i < rs.length
    · rw [List.getD_append _ _ _ _ hir]
      constructor
      · intro hmem
        rcases List.mem_append.mp hmem with h1 | h1
        · exact (hiff i hir).mp h1
        · rw [List.mem_singleton] at h1
          omega
      · intro hh
        exact List.mem_append.mpr (Or.inl ((hiff i hir).mpr hh))
    · have hieq : i = rs.length := by omega
      subst hieq
      rw [List.getD_append_right _ _ _ _ (le_refl _)]
      simp only [Nat.sub_self, List.getD_cons_zero]
      constructor
      · intro _
        exact hl
      · intro _
        exact List.mem_append.mpr (Or.inr (List.mem_singleton.mpr rfl))

/-- Helper: flushing preserves the position/result invariant. -/
theorem alFlush_good (st : ALState) (h : goodPR st.hunkPositions st.result) :
    goodPR (alFlush st).hunkPositions (alFlush st).result := by
  unfold alFlush
  exact goodPR_append_nonhunk _ _ _ h (flushBlock_not_hunk st.block)

/-- Helper: one loop iteration of `addLineNumbers` preserves the
position/result invariant. -/
theorem alStep_good (st : ALState) (line : List Char)
    (h : goodPR st.hunkPositions st.result) :
    goodPR (alStep st line).hunkPositions (alStep st line).result := by
  have hctx : ∀ (o n : Nat), ∀ l ∈ [ctxRender o n line], ¬ IsHunkLine l := by
    intro o n l hlmem
    rw [List.mem_singleton] at hlmem
    subst hlmem
    exact ctxRender_not_hunk _ _ _
  cases hm : hunkHeaderMatch (stripANSI line) with
  | some v =>
    obtain ⟨o, n⟩ := v
    have hhunk : IsHunkLine (metaRender line) :=
      (isHunkLine_metaRender line).mpr (by rw [hm]; rfl)
    simp only [alStep, hm]
    by_cases hcol : (st.collectingMinus || st.collectingPlus) = true
    · rw [if_pos hcol]
      exact goodPR_append_hunk _ _ _ (alFlush_good st h) hhunk
    · rw [if_neg hcol]
      exact goodPR_append_hunk _ _ _ h hhunk
  | none =>
    have hnothunk : ∀ l ∈ [metaRender line], ¬ IsHunkLine l := by
      intro l hlmem
      rw [List.mem_singleton] at hlmem
      subst hlmem
      rw [isHunkLine_metaRender, hm]
      simp
    simp only [alStep, hm]
    by_cases hin : st.inHunk = false
    · rw [if_pos hin]
      exact goodPR_append_nonhunk _ _ _ h hnothunk
    · rw [if_neg hin]
      cases hstr : stripANSI line with
      | nil =>
        dsimp only
        by_cases hcol : (st.collectingMinus || st.collectingPlus) = true
        · rw [if_pos hcol]
          exact goodPR_append_nonhunk _ _ _ (alFlush_good st h) (hctx _ _)
        · rw [if_neg hcol]
          exact goodPR_append_nonhunk _ _ _ h (hctx _ _)
      | cons c rest =>
        dsimp only
        by_cases hcm : c = '-'
        · rw [if_pos hcm]
          by_cases hcp : st.collectingPlus = true
          · rw [if_pos hcp]
            exact alFlush_good st h
          · rw [if_neg hcp]
            exact h
        · rw [if_neg hcm]
          by_cases hcpl : c = '+'
          · rw [if_pos hcpl]
            exact h
          · rw [if_neg hcpl]
            by_cases hcol : (st.collectingMinus || st.collectingPlus) = true
            · rw [if_pos hcol]
              exact goodPR_append_nonhunk _ _ _ (alFlush_good st h) (hctx _ _)
            · rw [if_neg hcol]
              exact goodPR_append_nonhunk _ _ _ h (hctx _ _)

/-- Claim C1: `addLineNumbers` returns hunk offsets that are strictly
ascending and that list exactly the 0-based indices of the hunk-header
lines among the rendered output lines: every recorded offset points at a
hunk-header line and every hunk-header line's index is recorded. -/
theorem annotate_hunk_offsets (content : List Char) :
    (addLineNumbers content).2.Pairwise (· < ·) ∧
    (∀ i, i ∈ (addLineNumbers content).2 ↔
      (i < (addLineNumbers content).1.length ∧
        IsHunkLine ((addLineNumbers content).1.getD i []))) := by
  have hfold : ∀ (lines : List (List Char)) (st : ALState),
      goodPR st.hunkPositions st.result →
      goodPR (lines.foldl alStep st).hunkPositions (lines.foldl alStep st).result := by
    intro lines
    induction lines with
    | nil =>
      intro st h
      exact h
    | cons l ls ih =>
      intro st h
      exact ih _ (alStep_good st l h)
  by_cases hc : content = []
  · subst hc
    constructor
    · simp [addLineNumbers]
    · intro i
      simp [addLineNumbers]
  · have hinit : goodPR initALState.hunkPositions initALState.result := by
      refine ⟨List.Pairwise.nil, ?_, ?_⟩
      · intro p hp
        simp [initALState] at hp
      · intro i hi
        simp [initALState] at hi
    have hg1 := hfold (splitOnNl content) initALState hinit
    have hgood : goodPR
        (alFinish ((splitOnNl content).foldl alStep initALState)).hunkPositions
        (alFinish ((splitOnNl content).foldl alStep initALState)).result := by
      unfold alFinish
      split_ifs
      · exact alFlush_good _ hg1
      · exact hg1
    obtain ⟨hp, hb, hiff⟩ := hgood
    simp only [addLineNumbers]
    rw [if_neg hc]
    constructor
    · exact hp
    · intro i
      constructor
      · intro hmem
        have hib := hb i hmem
        exact ⟨hib, (hiff i hib).mp hmem⟩
      · rintro ⟨hib, hh⟩
        exact (hiff i hib).mpr hh

/-- Witness for claim C1 on a concrete diff: the hunk-header line landed
at rendered index 1 and its offset is recorded. -/
theorem annotate_hunk_offsets_witness :
    1 ∈ (addLineNumbers ("x\n@@ -1 +1 @@\ny".toList)).2 :=
  ((annotate_hunk_offsets ("x\n@@ -1 +1 @@\ny".toList)).2 1).mpr
    ⟨by decide, ⟨("@@ -1 +1 @@".toList), by decide⟩, by decide⟩
